import Mathlib

/-!
A shallow embedding of the HOG (Histogram of Oriented Gradients) feature
extractor of this repository (class `HOG`, files HOG.hpp / HOG.cpp):
configuration validation, the per-cell histogram pass (`process_cell`),
block assembly and retrieval (`retrieve`), the session lifecycle
(`process` / `clear_internals`) and the block-normalization functions.

Modelling conventions:
- `float` values are modelled by exact rationals, and by real numbers for
  the functions that need a square root (`L2norm`, `L2hys`).
- `cv::Mat` matrices of CV_32F are row-major lists of rows of rationals.
- C++ `size_t` / `int` arithmetic is modelled by `Nat` / `Int`, with
  explicit reduction modulo 2^64 / 2^32 exactly at the places where the
  C++ code mixes the two types (the pixel-to-cell conversions and the
  block-loop bound arithmetic inside `HOG::retrieve`).
- Fallible operations return `Option` / `Except`.  A C++ `throw` is an
  `error` value; executions that are undefined behavior in C++
  (an out-of-range `operator[]` on the cell grid, integer division by
  zero in the constructor's member initializers) are marked with the
  distinguished error `UndefinedBehavior`.
- The OpenCV gradient engine (`cv::filter2D` / `cv::magnitude` /
  `cv::phase` inside `HOG::magnitude_and_orientation`) is an external
  library; `process` takes it as an explicit function parameter `g`,
  exactly like the configured `_block_norm` normalization callback is a
  `std::function` parameter of the class.
-/

set_option maxRecDepth 100000

namespace HOG

/-- Matrices (`cv::Mat` of CV_32F) are modelled as row-major lists of rows. -/
abbrev Mat := List (List ℚ)

/-- `static const size_t GRADIENT_SIGNED = 360;` -/
def GRADIENT_SIGNED : Nat := 360

/-- `static const size_t GRADIENT_UNSIGNED = 180;` -/
def GRADIENT_UNSIGNED : Nat := 180

/-- `static constexpr TType epsilon = 1e-6;` -/
def epsilon : ℚ := 1 / 1000000

/-- `HOG::L1norm`: `den = accumulate(v, 0.0f) + epsilon`; every element is
divided by `den` unless `den == 0`. -/
def L1norm (v : List ℚ) : List ℚ :=
  let den := v.foldl (· + ·) 0 + epsilon
  if den ≠ 0 then v.map (fun nom => nom / den) else v

/-- The same constant `1e-6`, as a real number, for the normalizations
that involve a square root. -/
noncomputable def epsilonR : ℝ := 1 / 1000000

/-- `HOG::L2norm`: `den = sqrt(accumulate(squares, 0.0f) + epsilon)`;
every element is divided by `den` unless `den == 0`. -/
noncomputable def L2norm (v : List ℝ) : List ℝ :=
  let den := Real.sqrt ((v.map (fun x => x * x)).foldl (· + ·) 0 + epsilonR)
  if den ≠ 0 then v.map (fun nom => nom / den) else v

/-- The clipping lambda inside `HOG::L2hys`:
`x > 0.2 ↦ 0.2`, `x < 0 ↦ 0`, otherwise `x`. -/
noncomputable def clip (x : ℝ) : ℝ := if x > 1 / 5 then 1 / 5 else if x < 0 then 0 else x

/-- `HOG::L2hys`: `L2norm`, clip every element to `[0, 0.2]`, `L2norm` again. -/
noncomputable def L2hys (v : List ℝ) : List ℝ := L2norm ((L2norm v).map clip)

/-- `HOG::none`: the identity normalization. -/
def none (v : List ℚ) : List ℚ := v

/-- The error taxonomy of the specification.  The C++ code signals all of
these as `std::runtime_error` with distinct messages; the spec gives them
the names used here.  `NotProcessed` appears in the spec's taxonomy but is
never produced by the code.  `UndefinedBehavior` marks executions that are
undefined in C++ and hence produce no defined value at all. -/
inductive HOGError where
  | ConfigInvalid
  | InvalidImage
  | ImageSmallerThanBlocksize
  | WindowTooSmall
  | WindowOutOfBounds
  | NotProcessed
  | UndefinedBehavior
deriving DecidableEq

/-- The immutable configuration fields of class `HOG`. -/
structure HOGConfig where
  blocksize : Nat
  cellsize : Nat
  stride : Nat
  binning : Nat
  grad_type : Nat
deriving DecidableEq

/-- `_bin_width(_grad_type / _binning)` — integer (`size_t`) division. -/
def bin_width (cfg : HOGConfig) : Nat := cfg.grad_type / cfg.binning

/-- `_n_cells_per_block_y = _blocksize/_cellsize` -/
def n_cells_per_block_y (cfg : HOGConfig) : Nat := cfg.blocksize / cfg.cellsize

/-- `_n_cells_per_block_x = _n_cells_per_block_y` -/
def n_cells_per_block_x (cfg : HOGConfig) : Nat := n_cells_per_block_y cfg

/-- `_n_cells_per_block = _n_cells_per_block_y*_n_cells_per_block_x` -/
def n_cells_per_block (cfg : HOGConfig) : Nat :=
  n_cells_per_block_y cfg * n_cells_per_block_x cfg

/-- `_block_hist_size = _binning*_n_cells_per_block` -/
def block_hist_size (cfg : HOGConfig) : Nat := cfg.binning * n_cells_per_block cfg

/-- `_stride_unit = _stride/_cellsize` -/
def stride_unit (cfg : HOGConfig) : Nat := cfg.stride / cfg.cellsize

/-- `check_ctor_params` from HOG.cpp: the sequence of constraint checks run
in the constructor body; each violated constraint throws (the spec calls
every such failure `ConfigInvalid`). -/
def check_ctor_params (blocksize cellsize stride binning grad_type : Nat) :
    Option HOGError :=
  if blocksize < 2 then some .ConfigInvalid
  else if cellsize < 1 then some .ConfigInvalid
  else if binning < 2 then some .ConfigInvalid
  else if grad_type ≠ GRADIENT_UNSIGNED ∧ grad_type ≠ GRADIENT_SIGNED then some .ConfigInvalid
  else if blocksize % cellsize ≠ 0 then some .ConfigInvalid
  else if stride % cellsize ≠ 0 then some .ConfigInvalid
  else Option.none

/-- The full four-argument constructor `HOG::HOG(blocksize, cellsize,
stride, binning, grad_type, block_norm)`.  The member initializers run
before the constructor body: `_bin_width(_grad_type / _binning)` and the
default initializer `_n_cells_per_block_y = _blocksize/_cellsize` perform
`size_t` divisions, so `binning = 0` or `cellsize = 0` is an integer
division by zero — undefined behavior reached before `check_ctor_params`
can throw. -/
def construct (blocksize cellsize stride binning grad_type : Nat) :
    Except HOGError HOGConfig :=
  if binning = 0 ∨ cellsize = 0 then .error .UndefinedBehavior
  else
    match check_ctor_params blocksize cellsize stride binning grad_type with
    | some e => .error e
    | Option.none => .ok ⟨blocksize, cellsize, stride, binning, grad_type⟩

/-- 2^64, the modulus of C++ `size_t` arithmetic on the reference platform. -/
def U64 : Nat := 18446744073709551616

/-- 2^32, the modulus of C++ `int` arithmetic on the reference platform. -/
def U32 : Nat := 4294967296

/-- Conversion of a C++ `int` value to `size_t` (two's-complement
reduction modulo 2^64). -/
def toSizeT (p : Int) : Nat := (p % ((U64 : Nat) : Int)).toNat

/-- `static_cast<int>` of an unsigned 64-bit value: reduce modulo 2^32 and
reinterpret the top bit as the sign. -/
def toCppInt (n : Nat) : Int :=
  let r := n % U32
  if r < U32 / 2 then (r : Int) else (r : Int) - (U32 : Int)

/-- `size_t v = static_cast<int>(p / _cellsize);` where `p` is a C++ `int`
(a `cv::Rect` field) and `_cellsize` is `size_t`: the usual arithmetic
conversions first convert `p` to `size_t`, the quotient is truncated by
`static_cast<int>` and the result converted back to `size_t`. -/
def pixelToCellUnits (p : Int) (cellsize : Nat) : Nat :=
  toSizeT (toCppInt (toSizeT p / cellsize))

/-- `size_t` addition. -/
def addU64 (a b : Nat) : Nat := (a + b) % U64

/-- `size_t` subtraction (wrapping). -/
def subU64 (a b : Nat) : Nat := (a + U64 - b % U64) % U64

/-- `cv::Rect`: four C++ `int` fields. -/
structure Rect where
  x : Int
  y : Int
  width : Int
  height : Int
deriving DecidableEq

/-- The mutable session state of a `HOG` object: the gradient maps `mag`
and `ori` and the cached cell-histogram grid `_cell_hists`.  The derived
counts `_n_cells_y` / `_n_cells_x` are recomputed where used. -/
structure HOGState where
  cfg : HOGConfig
  mag : Mat
  ori : Mat
  cell_hists : List (List (List ℚ))
deriving DecidableEq

/-- `cv::Mat::rows` (0 for an empty matrix). -/
def matRows (m : Mat) : Nat := m.length

/-- `cv::Mat::cols` (0 for an empty matrix). -/
def matCols (m : Mat) : Nat := (m.headD []).length

/-- `_cell_hists[cell_y][cell_x]`; `operator[]` on a vector is undefined
behavior when the index is out of range, hence the `Option`. -/
def getCellHist (ch : List (List (List ℚ))) (cy cx : Nat) : Option (List ℚ) :=
  ch[cy]?.bind fun row => row[cx]?

/-- The two inner loops of `HOG::retrieve`: starting from the empty
`block_hist`, append the histogram of every member cell of the block at
`(b_y, b_x)`, rows outer, columns inner. -/
def buildBlockHist (ch : List (List (List ℚ))) (ncpby ncpbx b_y b_x : Nat) :
    Option (List ℚ) :=
  (List.range ncpby).foldlM
    (fun acc dy =>
      (List.range ncpbx).foldlM
        (fun acc2 dx => (getCellHist ch (b_y + dy) (b_x + dx)).map (fun h => acc2 ++ h))
        acc)
    []

/-- The values visited by `for (i = start; i <= bound; i += step)` over
`size_t`, assuming `0 < step` (with `step = 0` the C++ loop never
terminates; no valid configuration reached by the claims has
`stride_unit = 0` and this model is used only with positive steps). -/
def positions (start bound step : Nat) : List Nat :=
  if start ≤ bound then (List.range ((bound - start) / step + 1)).map (fun i => start + i * step)
  else []

/-- The result of the block loops of `HOG::retrieve`: a normally computed
descriptor is returned, an undefined out-of-range grid access has no
defined result at all. -/
def optionToExcept (o : Option (List ℚ)) : Except HOGError (List ℚ) :=
  match o with
  | some r => .ok r
  | Option.none => .error .UndefinedBehavior

/-- `HOG::retrieve`.  The two precondition checks are transcribed exactly:
`window.height < _blocksize` compares the `int` field with a `size_t`, so
the field is first converted to `size_t`; the bounds check
`window.x > mag.cols - window.width` is all-`int` arithmetic.  The
pixel-to-cell conversions and the loop-bound arithmetic
`y + height - _n_cells_per_block_y` are `size_t` operations.  The
`_block_norm` callback is applied to each assembled block histogram, which
is then appended to the output. -/
def retrieve (st : HOGState) (norm : List ℚ → List ℚ) (w : Rect) :
    Except HOGError (List ℚ) :=
  if toSizeT w.height < st.cfg.blocksize ∨ toSizeT w.width < st.cfg.blocksize then
    .error .WindowTooSmall
  else if w.x > (matCols st.mag : Int) - w.width ∨ w.y > (matRows st.mag : Int) - w.height then
    .error .WindowOutOfBounds
  else
    let x := pixelToCellUnits w.x st.cfg.cellsize
    let y := pixelToCellUnits w.y st.cfg.cellsize
    let width := pixelToCellUnits w.width st.cfg.cellsize
    let height := pixelToCellUnits w.height st.cfg.cellsize
    let ncpby := n_cells_per_block_y st.cfg
    let ncpbx := n_cells_per_block_x st.cfg
    let su := stride_unit st.cfg
    optionToExcept
      ((positions y (subU64 (addU64 y height) ncpby) su).foldlM
        (fun acc b_y =>
          (positions x (subU64 (addU64 x width) ncpbx) su).foldlM
            (fun acc2 b_x =>
              (buildBlockHist st.cell_hists ncpby ncpbx b_y b_x).map
                (fun bh => acc2 ++ norm bh))
            acc)
        [])

/-- `HOG::retrieve` as the C++ member function: it receives the object
state and returns it together with the result.  The method body reads
`_blocksize`, `mag`, `_cellsize`, the block-shape constants and
`_cell_hists`, and writes only the local variables `x`, `y`, `width`,
`height`, `block_hist` and `hog_hist` (`_block_norm` is applied to the
local `block_hist`), so the object state comes back untouched. -/
def retrieveM (st : HOGState) (norm : List ℚ → List ℚ) (w : Rect) :
    HOGState × Except HOGError (List ℚ) :=
  (st, retrieve st norm w)

/-- `static_cast<int>` applied to a `float` value: truncation toward zero. -/
def ratTrunc (q : ℚ) : Int := if 0 ≤ q then ⌊q⌋ else ⌈q⌉

/-- `cell_hist.at(idx) += m`: `std::vector::at` throws `std::out_of_range`
for any index outside the vector (a negative `int` index is converted to a
huge `size_type` first, hence also throws). -/
def histAtAdd (hist : List ℚ) (idx : Int) (m : ℚ) : Option (List ℚ) :=
  if h : 0 ≤ idx ∧ idx.toNat < hist.length then
    some (hist.set idx.toNat (hist.get ⟨idx.toNat, h.2⟩ + m))
  else Option.none

/-- The row-major pixel traversal of a cell, pairing each magnitude with
the orientation at the same position (the two matrices have the same
`_cellsize × _cellsize` shape). -/
def cellPixels (cell_mag cell_ori : Mat) : List (ℚ × ℚ) :=
  (cell_mag.zip cell_ori).flatMap fun rp => rp.1.zip rp.2

/-- The per-pixel orientation adjustment in `HOG::process_cell`: the
signed branch uses the raw orientation; the unsigned branch subtracts 180
when the orientation is ≥ 180. -/
def effectiveOrientation (grad_type : Nat) (ori : ℚ) : ℚ :=
  if grad_type = GRADIENT_SIGNED then ori
  else if 180 ≤ ori then ori - 180 else ori

/-- `HOG::process_cell`: starting from `THist cell_hist(_binning)` (all
zeros), for each pixel add its magnitude to the bin
`static_cast<int>(effective_orientation / _bin_width)`. -/
def process_cell (binning bw grad_type : Nat) (cell_mag cell_ori : Mat) :
    Option (List ℚ) :=
  (cellPixels cell_mag cell_ori).foldlM
    (fun hist p =>
      histAtAdd hist (ratTrunc (effectiveOrientation grad_type p.2 / (bw : ℚ))) p.1)
    (List.replicate binning 0)

/-- The input image: `process` only inspects whether it has data and its
dimensions; its pixels are consumed by the external gradient engine. -/
structure Img where
  data : Bool
  rows : Nat
  cols : Nat
deriving DecidableEq

/-- `cv::Rect cell_rect(j*_cellsize, i*_cellsize, _cellsize, _cellsize)`
followed by `cv::Mat(mag, cell_rect)`: the sub-matrix of `m` starting at
row `r0`, column `c0`, of height `h` and width `w`. -/
def cellRect (m : Mat) (r0 c0 h w : Nat) : Mat :=
  ((m.drop r0).take h).map fun row => (row.drop c0).take w

/-- The doubly nested cell loop of `HOG::process`: one `process_cell` per
grid position, `_n_cells_y = mag.rows/_cellsize` rows by
`_n_cells_x = mag.cols/_cellsize` columns. -/
def buildCellGrid (cfg : HOGConfig) (m o : Mat) : Option (List (List (List ℚ))) :=
  (List.range (matRows m / cfg.cellsize)).mapM fun i =>
    (List.range (matCols m / cfg.cellsize)).mapM fun j =>
      process_cell cfg.binning (bin_width cfg) cfg.grad_type
        (cellRect m (i * cfg.cellsize) (j * cfg.cellsize) cfg.cellsize cfg.cellsize)
        (cellRect o (i * cfg.cellsize) (j * cfg.cellsize) cfg.cellsize cfg.cellsize)

/-- `HOG::clear_internals`: empties `_cell_hists`. -/
def clear_internals (st : HOGState) : HOGState := { st with cell_hists := [] }

/-- `HOG::process`, with the OpenCV gradient engine
(`magnitude_and_orientation`) passed as the function `g`, which produces
the magnitude and orientation maps of the image.  The two validation
checks run first and throw with the object state untouched; only then are
the internals cleared and rebuilt.  The result pairs the post-call object
state with the thrown error, if any.  (When `process_cell` throws — only
possible for bin indexes outside the histogram — the C++ grid is left
partially built; no claim depends on that partial state and the model
returns the state with the maps replaced.) -/
def process (g : Img → Mat × Mat) (st : HOGState) (img : Img) :
    HOGState × Option HOGError :=
  if img.data = false then (st, some .InvalidImage)
  else if img.rows < st.cfg.blocksize ∨ img.cols < st.cfg.blocksize then
    (st, some .ImageSmallerThanBlocksize)
  else
    let st1 := clear_internals st
    let mo := g img
    let st2 := { st1 with mag := mo.1, ori := mo.2 }
    match buildCellGrid st.cfg mo.1 mo.2 with
    | some ch => ({ st2 with cell_hists := ch }, Option.none)
    | Option.none => (st2, some .UndefinedBehavior)

/-- Modelled from the spec: magnitude-weighted voting for one cell, with
bin index `floor(effective_orientation / (gradient_range / bin_count))`
where `gradient_range / bin_count` is real (not integer-truncated)
division — bin `b` holds the sum of the magnitudes of the pixels whose
index is `b`, with no interpolation across bins. -/
def specCellHistReal (binning grad_type : Nat) (cell_mag cell_ori : Mat) : List ℚ :=
  (List.range binning).map fun (b : Nat) =>
    ((cellPixels cell_mag cell_ori).filter fun p =>
        ⌊effectiveOrientation grad_type p.2 / ((grad_type : ℚ) / (binning : ℚ))⌋ == (b : Int)).foldl
      (fun a p => a + p.1) 0

/-- Modelled from the spec: the block top-left positions along one axis —
start at the window's first cell, step `stride / cellsize` cells, last
valid start `start + extent_in_cells - cells_per_block` (inclusive). -/
def specPositions (start extent ncpb step : Nat) : List Nat :=
  (List.range ((extent - ncpb) / step + 1)).map fun i => start + i * step

/-- Modelled from the spec: one block vector — the row-major concatenation
of the histograms of the block's member cells. -/
def specBlockVector (ch : List (List (List ℚ))) (ncpb b_y b_x : Nat) :
    Option (List ℚ) :=
  ((List.range ncpb).mapM fun dy =>
      ((List.range ncpb).mapM fun dx => getCellHist ch (b_y + dy) (b_x + dx)).map
        List.flatten).map
    (fun rows => rows.flatten)

/-- Modelled from the spec: the full descriptor — over block positions
enumerated row-major (y outer, x inner), the concatenation of the block
vectors with the configured normalization applied to each. -/
def specDescriptor (st : HOGState) (norm : List ℚ → List ℚ) (w : Rect) :
    Option (List ℚ) :=
  let c := st.cfg.cellsize
  let ncpb := n_cells_per_block_y st.cfg
  let su := stride_unit st.cfg
  ((specPositions (w.y.toNat / c) (w.height.toNat / c) ncpb su).mapM fun b_y =>
      ((specPositions (w.x.toNat / c) (w.width.toNat / c) ncpb su).mapM fun b_x =>
          (specBlockVector st.cell_hists ncpb b_y b_x).map norm).map
        (fun bs => bs.flatten)).map
    (fun rows => rows.flatten)

/-- The closed-form block count along y for a window:
`(height_in_cells - cells_per_block) / stride_in_cells + 1`. -/
def n_blocks_y (cfg : HOGConfig) (w : Rect) : Nat :=
  (w.height.toNat / cfg.cellsize - n_cells_per_block_y cfg) / stride_unit cfg + 1

/-- The closed-form block count along x for a window. -/
def n_blocks_x (cfg : HOGConfig) (w : Rect) : Nat :=
  (w.width.toNat / cfg.cellsize - n_cells_per_block_x cfg) / stride_unit cfg + 1

/-- The shape invariant established by a successful `process`: the cell
grid has `mag.rows/_cellsize` rows of `mag.cols/_cellsize` cell
histograms, each of length `_binning`. -/
def ProcessedWF (st : HOGState) : Prop :=
  st.cell_hists.length = matRows st.mag / st.cfg.cellsize ∧
  (∀ row ∈ st.cell_hists, row.length = matCols st.mag / st.cfg.cellsize) ∧
  (∀ row ∈ st.cell_hists, ∀ h ∈ row, h.length = st.cfg.binning)

/-- A window that is valid for `retrieve` in the sense of the spec:
nonnegative origin, at least a block in both dimensions, contained in the
gradient maps; the maps fit in a C++ `int` (true of any `cv::Mat`). -/
def ValidWindow (st : HOGState) (w : Rect) : Prop :=
  0 ≤ w.x ∧ 0 ≤ w.y ∧
  (st.cfg.blocksize : Int) ≤ w.width ∧ (st.cfg.blocksize : Int) ≤ w.height ∧
  w.x + w.width ≤ (matCols st.mag : Int) ∧ w.y + w.height ≤ (matRows st.mag : Int) ∧
  matCols st.mag < 2 ^ 31 ∧ matRows st.mag < 2 ^ 31

/-- The configuration used by the repository's functional test driver:
blocksize 32, cellsize 16, stride 16, 9 bins, unsigned gradients. -/
def cfg32 : HOGConfig := ⟨32, 16, 16, 9, 180⟩

/-- A processed session over a 256×128 image with that configuration:
16×8 cells, each histogram of length 9 (all-zero gradient content). -/
def st256 : HOGState :=
  { cfg := cfg32
    mag := List.replicate 256 (List.replicate 128 0)
    ori := List.replicate 256 (List.replicate 128 0)
    cell_hists := List.replicate 16 (List.replicate 8 (List.replicate 9 0)) }

/-- A small processed session over a 32×32 image. -/
def st32 : HOGState :=
  { cfg := cfg32
    mag := List.replicate 32 (List.replicate 32 0)
    ori := List.replicate 32 (List.replicate 32 0)
    cell_hists := List.replicate 2 (List.replicate 2 (List.replicate 9 0)) }

/-- A freshly constructed, never-processed session: `mag`, `ori` and
`_cell_hists` are all empty. -/
def stEmpty : HOGState := { cfg := cfg32, mag := [], ori := [], cell_hists := [] }

/-- A session holding a previously computed (toy) result, used to observe
what a failing `process` call does to prior state. -/
def stPrior : HOGState :=
  { cfg := cfg32
    mag := [[1]]
    ori := [[0]]
    cell_hists := [[[1]]] }

/-- A trivial gradient engine (used where the gradient values are
irrelevant): all-zero maps of the image's shape. -/
def gZero (img : Img) : Mat × Mat :=
  (List.replicate img.rows (List.replicate img.cols 0),
   List.replicate img.rows (List.replicate img.cols 0))

/-- An invalid input image (`!img.data`). -/
def badImg : Img := { data := false, rows := 256, cols := 128 }

/-- A window with a negative x origin whose width equals the block size;
on the 256×128 session it passes both `retrieve` precondition checks. -/
def w10 : Rect := ⟨-16, 0, 32, 256⟩

/-- The value of a histogram at a bin index, with 0 past the end (used
only to state and prove properties, never by the embedded code). -/
def nthQ (l : List ℚ) (i : Nat) : ℚ := (l[i]?).getD 0

/-!  Theorems.  -/

/-- `foldl (+)` over any starting accumulator. -/
theorem foldl_add_eq {α : Type} [AddCommMonoid α] (l : List α) (a : α) :
    l.foldl (· + ·) a = a + l.foldl (· + ·) 0 := by
  induction l generalizing a with
  | nil => simp
  | cons x xs ih =>
    simp only [List.foldl_cons]
    rw [ih (a + x), ih (0 + x), zero_add, add_assoc]

/-- The accumulated sum of a list of nonnegative values is nonnegative. -/
theorem foldl_add_nonneg {α : Type} [OrderedAddCommMonoid α] (l : List α)
    (h : ∀ x ∈ l, 0 ≤ x) : 0 ≤ l.foldl (· + ·) 0 := by
  induction l with
  | nil => simp
  | cons x xs ih =>
    rw [List.foldl_cons, foldl_add_eq]
    have hx := h x (by simp)
    have hxs := ih (fun y hy => h y (by simp [hy]))
    rw [zero_add]
    exact add_nonneg hx hxs

/-- Dividing every element by a constant divides the accumulated sum. -/
theorem foldl_add_map_div {α : Type} [Field α] (l : List α) (d : α) :
    (l.map (fun a => a / d)).foldl (· + ·) 0 = l.foldl (· + ·) 0 / d := by
  induction l with
  | nil => simp
  | cons x xs ih =>
    rw [List.map_cons, List.foldl_cons, List.foldl_cons, foldl_add_eq,
      foldl_add_eq (l := xs), ih]
    ring

/-- C7, counterexample: the input `[1/2]` has nonnegative entries and is
not all-zero, yet the elements of `L1norm [1/2]` sum to `500000/500001`,
which differs from 1 by `1/500001 > ε`: the output does not sum to 1
within ε for every non-all-zero nonnegative input. -/
theorem c7_sum_within_epsilon_fails :
    (∀ x ∈ [(1 : ℚ) / 2], 0 ≤ x) ∧ ¬(∀ x ∈ [(1 : ℚ) / 2], x = 0) ∧
    ¬(|(L1norm [(1 : ℚ) / 2]).foldl (· + ·) 0 - 1| ≤ epsilon) := by
  have h1 : L1norm [(1 : ℚ) / 2] = [500000 / 500001] := by
    norm_num [L1norm, epsilon]
  refine ⟨?_, ?_, ?_⟩
  · intro x hx
    rw [List.mem_singleton] at hx
    rw [hx]; norm_num
  · intro h
    have := h (1 / 2) (List.mem_singleton.mpr rfl)
    norm_num at this
  · rw [h1]
    intro h
    rw [List.foldl_cons, List.foldl_nil] at h
    rw [abs_le] at h
    have := h.1
    norm_num [epsilon] at this

/-- C7 (amended): `L1norm` divides every element by the element sum plus
`ε = 1e-6`; that denominator is strictly positive for nonnegative inputs
(no division by zero); the output sums to 1 within ε whenever the input
sum is at least `1 - ε`; an all-zero input stays all-zero. -/
theorem c7_L1norm_divides_by_sum_plus_epsilon (v : List ℚ) (hv : ∀ x ∈ v, 0 ≤ x) :
    L1norm v = v.map (fun a => a / (v.foldl (· + ·) 0 + epsilon)) ∧
    0 < v.foldl (· + ·) 0 + epsilon ∧
    (1 - epsilon ≤ v.foldl (· + ·) 0 →
      |(L1norm v).foldl (· + ·) 0 - 1| ≤ epsilon) ∧
    ((∀ x ∈ v, x = 0) → L1norm v = v) := by
  have heps : (0 : ℚ) < epsilon := by norm_num [epsilon]
  have hs : 0 ≤ v.foldl (· + ·) 0 := foldl_add_nonneg v hv
  have hden : 0 < v.foldl (· + ·) 0 + epsilon := by linarith
  have hmap : L1norm v = v.map (fun a => a / (v.foldl (· + ·) 0 + epsilon)) := by
    unfold L1norm
    simp only [ne_eq, hden.ne', not_false_iff, if_true]
  refine ⟨hmap, hden, ?_, ?_⟩
  · intro hbig
    rw [hmap, foldl_add_map_div]
    have hone : (1 : ℚ) ≤ v.foldl (· + ·) 0 + epsilon := by linarith
    have hkey : v.foldl (· + ·) 0 / (v.foldl (· + ·) 0 + epsilon) - 1
        = -(epsilon / (v.foldl (· + ·) 0 + epsilon)) := by
      field_simp
    rw [hkey, abs_neg, abs_of_nonneg (by positivity)]
    exact div_le_self heps.le hone
  · intro hzero
    rw [hmap]
    have : ∀ a ∈ v, a / (v.foldl (· + ·) 0 + epsilon) = a := by
      intro a ha; rw [hzero a ha]; simp
    calc v.map (fun a => a / (v.foldl (· + ·) 0 + epsilon)) = v.map id := by
          exact List.map_congr_left this
      _ = v := List.map_id v

/-- C7, witness: the amended theorem applied to the concrete inputs
`[3/2, 1/2]` (sum 2 ≥ 1 - ε) and `[0, 0]`. -/
theorem c7_L1norm_witness :
    |(L1norm [(3 : ℚ) / 2, 1 / 2]).foldl (· + ·) 0 - 1| ≤ epsilon ∧
    L1norm [(0 : ℚ), 0] = [0, 0] := by
  constructor
  · refine (c7_L1norm_divides_by_sum_plus_epsilon [(3 : ℚ) / 2, 1 / 2] ?_).2.2.1 ?_
    · intro x hx
      rcases List.mem_pair.mp hx with h | h <;> rw [h] <;> norm_num
    · norm_num [epsilon]
  · refine (c7_L1norm_divides_by_sum_plus_epsilon [(0 : ℚ), 0] ?_).2.2.2 ?_
    · intro x hx
      rcases List.mem_pair.mp hx with h | h <;> rw [h]
    · intro x hx
      rcases List.mem_pair.mp hx with h | h <;> rw [h]

/-- C9: `retrieve` is a pure read of the session state.  The member
function returns the object state untouched (it writes only its locals),
so a second call with the same window yields the identical result, and
the cell-histogram grid and the gradient maps are unchanged by each
call. -/
theorem c9_retrieve_pure_read (st : HOGState) (norm : List ℚ → List ℚ) (w : Rect) :
    (retrieveM st norm w).1 = st ∧
    (retrieveM ((retrieveM st norm w).1) norm w).2 = (retrieveM st norm w).2 ∧
    (retrieveM st norm w).1.cell_hists = st.cell_hists ∧
    (retrieveM st norm w).1.mag = st.mag ∧
    (retrieveM st norm w).1.ori = st.ori :=
  ⟨rfl, rfl, rfl, rfl, rfl⟩

/-- C4, counterexample: `process` on an invalid image (`!img.data`) fails,
but the prior cell-histogram grid `[[[1]]]` of the session is NOT cleared
— the code validates before clearing, so the claim that the grid is
cleared unconditionally before validation is false on this input. -/
theorem c4_failed_process_keeps_prior_state :
    (process gZero stPrior badImg).2 = some HOGError.InvalidImage ∧
    (process gZero stPrior badImg).1.cell_hists = [[[1]]] ∧
    ([[[(1 : ℚ)]]] : List (List (List ℚ))) ≠ [] := by
  refine ⟨rfl, rfl, ?_⟩
  intro h
  exact List.cons_ne_nil _ _ h

/-- C4 (amended): `process` validates the new image BEFORE clearing the
prior internal state: a `process` call that fails validation returns with
the session state — including a valid prior cell grid — unchanged. -/
theorem c4_process_validates_before_clearing (g : Img → Mat × Mat) (st : HOGState)
    (img : Img)
    (h : img.data = false ∨ img.rows < st.cfg.blocksize ∨ img.cols < st.cfg.blocksize) :
    (process g st img).1 = st ∧
    ((process g st img).2 = some HOGError.InvalidImage ∨
      (process g st img).2 = some HOGError.ImageSmallerThanBlocksize) := by
  unfold process
  split_ifs with h1 h2
  · exact ⟨rfl, Or.inl rfl⟩
  · exact ⟨rfl, Or.inr rfl⟩
  · rcases h with h | h
    · exact absurd h h1
    · exact absurd h h2

/-- C4, witness: the amended theorem at the concrete failing call. -/
theorem c4_witness :
    (process gZero stPrior badImg).1 = stPrior ∧
    ((process gZero stPrior badImg).2 = some HOGError.InvalidImage ∨
      (process gZero stPrior badImg).2 = some HOGError.ImageSmallerThanBlocksize) :=
  c4_process_validates_before_clearing gZero stPrior badImg (Or.inl rfl)

/-- C6: the configuration constraints are the right ones and every
configuration satisfying them is accepted — but construction does NOT
fail with `ConfigInvalid` on every violation: with `binning = 0` (or
`cellsize = 0`) the member initializers `_bin_width = _grad_type/_binning`
and `_n_cells_per_block_y = _blocksize/_cellsize` divide by zero before
`check_ctor_params` can throw, which is undefined behavior (a SIGFPE on
the reference platform), even though the check itself would have rejected
the configuration. -/
theorem c6_ctor_division_by_zero_preempts_validation :
    construct 32 16 16 0 180 = .error HOGError.UndefinedBehavior ∧
    check_ctor_params 32 16 16 0 180 = some HOGError.ConfigInvalid ∧
    construct 32 0 16 9 180 = .error HOGError.UndefinedBehavior ∧
    check_ctor_params 32 0 16 9 180 = some HOGError.ConfigInvalid ∧
    construct 32 16 16 9 180 = .ok cfg32 :=
  ⟨rfl, rfl, rfl, rfl, rfl⟩

/-- C6 helper content: the validation function itself accepts exactly the
configurations satisfying all the constraints of the claim. -/
theorem check_ctor_params_characterization (b c s n g : Nat) :
    (check_ctor_params b c s n g = Option.none ↔
      (2 ≤ b ∧ 1 ≤ c ∧ 2 ≤ n ∧ (g = GRADIENT_UNSIGNED ∨ g = GRADIENT_SIGNED) ∧
        b % c = 0 ∧ s % c = 0)) ∧
    (check_ctor_params b c s n g = some HOGError.ConfigInvalid ↔
      ¬(2 ≤ b ∧ 1 ≤ c ∧ 2 ≤ n ∧ (g = GRADIENT_UNSIGNED ∨ g = GRADIENT_SIGNED) ∧
        b % c = 0 ∧ s % c = 0)) := by
  unfold check_ctor_params
  split_ifs with h1 h2 h3 h4 h5 h6
  all_goals simp_all
  all_goals omega

/-- The block loops of `retrieve` can only end in a computed descriptor or
in undefined behavior, never in one of the precondition errors. -/
theorem optionToExcept_ne_precondition (o : Option (List ℚ)) :
    optionToExcept o ≠ .error HOGError.WindowTooSmall ∧
    optionToExcept o ≠ .error HOGError.WindowOutOfBounds ∧
    optionToExcept o ≠ .error HOGError.NotProcessed := by
  cases o <;> simp [optionToExcept]

/-- C5 (amended): `retrieve` fails with `WindowTooSmall` exactly when the
window height or width — converted to `size_t`, as the C++ comparison
with `_blocksize` does — is smaller than the block size; it fails with
`WindowOutOfBounds` exactly when the first check passed and
`x + width > map_width` or `y + height > map_height`; it NEVER fails with
a distinct `NotProcessed` error — in particular, calling it without a
prior successful `process` (empty 0×0 maps) yields `WindowOutOfBounds`
for any window with `x + width > 0` that passes the size check. -/
theorem c5_retrieve_error_conditions (st : HOGState) (norm : List ℚ → List ℚ) (w : Rect) :
    (retrieve st norm w = .error HOGError.WindowTooSmall ↔
      (toSizeT w.height < st.cfg.blocksize ∨ toSizeT w.width < st.cfg.blocksize)) ∧
    (retrieve st norm w = .error HOGError.WindowOutOfBounds ↔
      (¬(toSizeT w.height < st.cfg.blocksize ∨ toSizeT w.width < st.cfg.blocksize) ∧
        ((matCols st.mag : Int) < w.x + w.width ∨ (matRows st.mag : Int) < w.y + w.height))) ∧
    retrieve st norm w ≠ .error HOGError.NotProcessed ∧
    (st.mag = [] →
      ¬(toSizeT w.height < st.cfg.blocksize ∨ toSizeT w.width < st.cfg.blocksize) →
      0 < w.x + w.width → retrieve st norm w = .error HOGError.WindowOutOfBounds) := by
  unfold retrieve
  split_ifs with h1 h2
  · exact ⟨by simp [h1], by simp [h1], by simp, fun _ hno _ => absurd h1 hno⟩
  · refine ⟨by simp [h1], ?_, by simp, fun _ _ _ => rfl⟩
    constructor
    · intro _
      refine ⟨h1, ?_⟩
      omega
    · intro _
      rfl
  · refine ⟨?_, ?_, ?_, ?_⟩
    · constructor
      · intro he
        exact absurd he (optionToExcept_ne_precondition _).1
      · intro hcond
        exact absurd hcond h1
    · constructor
      · intro he
        exact absurd he (optionToExcept_ne_precondition _).2.1
      · rintro ⟨-, hdisj⟩
        exfalso
        omega
    · exact (optionToExcept_ne_precondition _).2.2
    · intro hmag hns hpos
      exfalso
      rw [hmag] at h2
      simp only [matCols, matRows, List.headD_nil, List.length_nil] at h2
      omega

/-- C5, counterexample: `retrieve` on a freshly constructed, never
processed session does not raise any distinct `NotProcessed` error — the
maps are empty `0×0` matrices, so a perfectly ordinary window fails the
bounds check and the call reports `WindowOutOfBounds` instead. -/
theorem c5_no_distinct_not_processed_error :
    retrieve stEmpty HOG.none ⟨0, 0, 128, 256⟩ = .error HOGError.WindowOutOfBounds ∧
    HOGError.WindowOutOfBounds ≠ HOGError.NotProcessed :=
  ⟨rfl, fun h => HOGError.noConfusion h⟩

/-- C5, witness: the amended characterization applied at concrete calls —
a too-small window, a window past the bounds of a processed 256×128
session, and a call on an unprocessed session. -/
theorem c5_witness :
    retrieve st256 HOG.none ⟨0, 0, 16, 300⟩ = .error HOGError.WindowTooSmall ∧
    retrieve st256 HOG.none ⟨0, 200, 128, 256⟩ = .error HOGError.WindowOutOfBounds ∧
    retrieve stEmpty HOG.none ⟨5, 5, 64, 64⟩ = .error HOGError.WindowOutOfBounds := by
  refine ⟨?_, ?_, ?_⟩
  · exact (c5_retrieve_error_conditions st256 HOG.none ⟨0, 0, 16, 300⟩).1.mpr (by decide)
  · exact (c5_retrieve_error_conditions st256 HOG.none ⟨0, 200, 128, 256⟩).2.1.mpr
      ⟨by decide, by decide⟩
  · exact (c5_retrieve_error_conditions stEmpty HOG.none ⟨5, 5, 64, 64⟩).2.2.2 rfl
      (by decide) (by decide)

/-- C10: a window with negative `x`, width and height at least the block
size, and `x + width ≤ map_width` passes both `retrieve` validation
checks; the mixed `int`/`size_t` pixel-to-cell conversion then turns the
negative origin into a huge cell index (here 2^64 − 1, far past every row
of the 16×8 cell grid), and the block loop indexes the cell-histogram
grid out of its bounds — undefined behavior in the C++ code. -/
theorem c10_negative_origin_passes_checks :
    ∃ (st : HOGState) (w : Rect),
      (w.x < 0 ∧ 0 ≤ w.y ∧
        (st.cfg.blocksize : Int) ≤ w.width ∧ (st.cfg.blocksize : Int) ≤ w.height ∧
        w.x + w.width ≤ (matCols st.mag : Int) ∧ w.y + w.height ≤ (matRows st.mag : Int) ∧
        ¬(toSizeT w.height < st.cfg.blocksize ∨ toSizeT w.width < st.cfg.blocksize) ∧
        ¬(w.x > (matCols st.mag : Int) - w.width ∨ w.y > (matRows st.mag : Int) - w.height) ∧
        (∀ row ∈ st.cell_hists, row.length ≤ pixelToCellUnits w.x st.cfg.cellsize)) ∧
      retrieve st HOG.none w = .error HOGError.UndefinedBehavior :=
  ⟨st256, w10, by decide, rfl⟩

/-- The vector produced by `L2norm` has sum of squares at most 1: the
squares sum to `S / (S + ε)` where `S` is the input's sum of squares. -/
theorem L2norm_sumSq_le_one (v : List ℝ) :
    ((L2norm v).map (fun x => x * x)).foldl (· + ·) 0 ≤ 1 := by
  have hS : (0 : ℝ) ≤ (v.map (fun x => x * x)).foldl (· + ·) 0 := by
    apply foldl_add_nonneg
    intro x hx
    obtain ⟨y, -, rfl⟩ := List.mem_map.mp hx
    exact mul_self_nonneg y
  have heps : (0 : ℝ) < epsilonR := by norm_num [epsilonR]
  have hpos : (0 : ℝ) < (v.map (fun x => x * x)).foldl (· + ·) 0 + epsilonR := by linarith
  have hden : Real.sqrt ((v.map (fun x => x * x)).foldl (· + ·) 0 + epsilonR) ≠ 0 :=
    (Real.sqrt_pos.mpr hpos).ne'
  unfold L2norm
  rw [if_pos hden]
  have hmaps :
      ((v.map (fun nom =>
          nom / Real.sqrt ((v.map (fun x => x * x)).foldl (· + ·) 0 + epsilonR))).map
        (fun x => x * x))
        = (v.map (fun x => x * x)).map
            (fun y => y / (Real.sqrt ((v.map (fun x => x * x)).foldl (· + ·) 0 + epsilonR) *
              Real.sqrt ((v.map (fun x => x * x)).foldl (· + ·) 0 + epsilonR))) := by
    rw [List.map_map, List.map_map]
    apply List.map_congr_left
    intro a _
    simp only [Function.comp]
    ring
  rw [hmaps, foldl_add_map_div, Real.mul_self_sqrt hpos.le]
  rw [div_le_one hpos]
  linarith

/-- C8: `L2hys` applies `L2norm`, clips every element to `[0, 0.2]`, and
reapplies `L2norm`; after the clip step every element lies in `[0, 0.2]`,
and the final vector's L2 norm (the square root of its sum of squares) is
at most 1. -/
theorem c8_L2hys_clip_and_unit_norm (v : List ℝ) :
    L2hys v = L2norm ((L2norm v).map clip) ∧
    (∀ x ∈ (L2norm v).map clip, 0 ≤ x ∧ x ≤ 1 / 5) ∧
    Real.sqrt (((L2hys v).map (fun x => x * x)).foldl (· + ·) 0) ≤ 1 := by
  refine ⟨rfl, ?_, ?_⟩
  · intro x hx
    obtain ⟨y, -, rfl⟩ := List.mem_map.mp hx
    unfold clip
    split_ifs with h1 h2
    · norm_num
    · norm_num
    · exact ⟨not_lt.mp h2, not_lt.mp h1⟩
  · have hle : ((L2hys v).map (fun x => x * x)).foldl (· + ·) 0 ≤ 1 := by
      unfold L2hys
      exact L2norm_sumSq_le_one ((L2norm v).map clip)
    exact Real.sqrt_le_one.mpr hle

/-- `nthQ` at the head of a list. -/
theorem nthQ_cons_zero (x : ℚ) (l : List ℚ) : nthQ (x :: l) 0 = x := by simp [nthQ]

/-- `nthQ` past the head of a list. -/
theorem nthQ_cons_succ (x : ℚ) (l : List ℚ) (j : Nat) :
    nthQ (x :: l) (j + 1) = nthQ l j := by simp [nthQ]

/-- Reading a list after `set`: the written value at the written index
(when in range), the old value elsewhere. -/
theorem nthQ_set (l : List ℚ) (i j : Nat) (a : ℚ) :
    nthQ (l.set i a) j = if i = j ∧ i < l.length then a else nthQ l j := by
  induction l generalizing i j with
  | nil => simp [nthQ]
  | cons x xs ih =>
    cases i with
    | zero =>
      cases j with
      | zero => simp [nthQ]
      | succ j => simp [nthQ]
    | succ i =>
      cases j with
      | zero => simp [nthQ]
      | succ j =>
        rw [List.set_cons_succ, nthQ_cons_succ, nthQ_cons_succ, ih]
        simp only [List.length_cons]
        split_ifs with h1 h2
        all_goals first
        | rfl
        | omega

/-- `nthQ` of an all-zero histogram. -/
theorem nthQ_replicate_zero (n b : Nat) : nthQ (List.replicate n (0 : ℚ)) b = 0 := by
  induction n generalizing b with
  | zero => simp [nthQ]
  | succ n ih =>
    cases b with
    | zero => simp [nthQ, List.replicate_succ]
    | succ b =>
      simp only [List.replicate_succ, nthQ, List.getElem?_cons_succ]
      exact ih b

/-- Lists of the same length agreeing on `nthQ` at every index in range
are equal. -/
theorem nthQ_ext (l l' : List ℚ) (hlen : l.length = l'.length)
    (h : ∀ i, i < l.length → nthQ l i = nthQ l' i) : l = l' := by
  apply List.ext_getElem?
  intro i
  by_cases hi : i < l.length
  · have h1 : l[i]? = some l[i] := List.getElem?_eq_getElem hi
    have h2 : l'[i]? = some (l'.get ⟨i, by omega⟩) :=
      List.getElem?_eq_getElem (by omega)
    have := h i hi
    rw [nthQ, nthQ, h1, h2] at this
    rw [h1, h2]
    simpa using this
  · rw [List.getElem?_eq_none (by omega), List.getElem?_eq_none (by omega)]

/-- `foldl` of adding first components, over any starting accumulator. -/
theorem foldl_add_fst_eq (l : List (ℚ × ℚ)) (a : ℚ) :
    l.foldl (fun s p => s + p.1) a = a + l.foldl (fun s p => s + p.1) 0 := by
  induction l generalizing a with
  | nil => simp
  | cons x xs ih =>
    simp only [List.foldl_cons]
    rw [ih (a + x.1), ih (0 + x.1), zero_add, add_assoc]

/-- The accumulation loop of `process_cell`, for an arbitrary bin-index
function `f`: when every pixel's index is in range, the fold succeeds and
bin `b` of the result holds its starting value plus the sum of the
magnitudes of the pixels with index `b` — magnitude-weighted voting with
hard bin assignment and no interpolation. -/
theorem foldlM_histAtAdd_eq (f : ℚ × ℚ → Int) (pixels : List (ℚ × ℚ)) (hist : List ℚ)
    (hin : ∀ p ∈ pixels, 0 ≤ f p ∧ (f p).toNat < hist.length) :
    ∃ r, pixels.foldlM (fun h p => histAtAdd h (f p) p.1) hist = some r ∧
      r.length = hist.length ∧
      ∀ b, nthQ r b = nthQ hist b +
        (pixels.filter (fun p => f p == (b : Int))).foldl (fun a p => a + p.1) 0 := by
  induction pixels generalizing hist with
  | nil =>
    refine ⟨hist, rfl, rfl, ?_⟩
    intro b
    simp
  | cons p ps ih =>
    obtain ⟨hf0, hflen⟩ := hin p (by simp)
    have hstep : histAtAdd hist (f p) p.1
        = some (hist.set (f p).toNat (hist.get ⟨(f p).toNat, hflen⟩ + p.1)) := by
      unfold histAtAdd
      rw [dif_pos ⟨hf0, hflen⟩]
    obtain ⟨r, hr, hrlen, hrval⟩ :=
      ih (hist.set (f p).toNat (hist.get ⟨(f p).toNat, hflen⟩ + p.1))
        (by
          intro q hq
          have := hin q (by simp [hq])
          simpa using this)
    refine ⟨r, ?_, by simpa using hrlen, ?_⟩
    · rw [List.foldlM_cons, hstep]
      simpa using hr
    · intro b
      rw [hrval b, List.filter_cons]
      by_cases hfb : f p = (b : Int)
      · have htn : (f p).toNat = b := by omega
        have hget : nthQ hist b = hist.get ⟨(f p).toNat, hflen⟩ := by
          subst htn
          rw [nthQ, List.getElem?_eq_getElem hflen]
          simp
        rw [if_pos (by simpa using hfb)]
        rw [nthQ_set, if_pos ⟨htn, by omega⟩, hget, List.foldl_cons,
          foldl_add_fst_eq _ (0 + p.1)]
        ring
      · rw [if_neg (by simpa using hfb)]
        rw [nthQ_set, if_neg (by omega)]

/-- Every pixel produced by the cell traversal carries an orientation
taken from the orientation sub-matrix. -/
theorem cellPixels_ori_mem (cell_mag cell_ori : Mat) (p : ℚ × ℚ)
    (hp : p ∈ cellPixels cell_mag cell_ori) : ∃ row ∈ cell_ori, p.2 ∈ row := by
  obtain ⟨pm, po⟩ := p
  unfold cellPixels at hp
  obtain ⟨rp, hrp, hpzip⟩ := List.mem_flatMap.mp hp
  obtain ⟨r1, r2⟩ := rp
  exact ⟨r2, (List.of_mem_zip hrp).2, (List.of_mem_zip hpzip).2⟩

/-- C1 (amended): for a valid gradient mode whose range is divisible by
the bin count (so the constructor's integer bin width
`_bin_width = grad_type / binning` coincides with the real quotient), and
for orientation values in `[0, 360)` as produced by `cv::phase`, the cell
histogram computed by `process_cell` is exactly magnitude-weighted voting
with bin index `floor(effective_orientation / (gradient_range / bin_count))`
— the effective orientation being the raw one in signed mode and
`raw - 180` when `raw ≥ 180` in unsigned mode — with the pixel's
magnitude accumulated into that single bin. -/
theorem c1_cell_histogram_is_weighted_voting (binning grad_type : Nat)
    (cell_mag cell_ori : Mat)
    (hgrad : grad_type = GRADIENT_UNSIGNED ∨ grad_type = GRADIENT_SIGNED)
    (hbin : 1 ≤ binning) (hdvd : binning ∣ grad_type)
    (hori : ∀ row ∈ cell_ori, ∀ o ∈ row, 0 ≤ o ∧ o < 360) :
    process_cell binning (grad_type / binning) grad_type cell_mag cell_ori
      = some (specCellHistReal binning grad_type cell_mag cell_ori) := by
  obtain ⟨k, hk⟩ := hdvd
  have hbpos : 0 < binning := hbin
  have hbwk : grad_type / binning = k := by
    rw [hk]
    exact Nat.mul_div_cancel_left k hbpos
  have hgradpos : 0 < grad_type := by
    rcases hgrad with h | h <;> rw [h] <;> norm_num [GRADIENT_UNSIGNED, GRADIENT_SIGNED]
  have hkpos : 0 < k := by
    rcases Nat.eq_zero_or_pos k with h | h
    · rw [h, Nat.mul_zero] at hk
      omega
    · exact h
  have hbQ : ((binning : ℚ)) ≠ 0 := Nat.cast_ne_zero.mpr (by omega)
  have hrealwidth : (grad_type : ℚ) / (binning : ℚ) = ((grad_type / binning : Nat) : ℚ) := by
    rw [hbwk, hk]
    push_cast
    rw [mul_comm, mul_div_assoc, div_self hbQ, mul_one]
  have hbwQpos : (0 : ℚ) < ((grad_type / binning : Nat) : ℚ) := by
    rw [hbwk]
    exact_mod_cast hkpos
  have hpix : ∀ p ∈ cellPixels cell_mag cell_ori, 0 ≤ p.2 ∧ p.2 < 360 := by
    intro p hp
    obtain ⟨row, hrow, hmem⟩ := cellPixels_ori_mem cell_mag cell_ori p hp
    exact hori row hrow p.2 hmem
  have heff : ∀ p ∈ cellPixels cell_mag cell_ori,
      0 ≤ effectiveOrientation grad_type p.2 ∧
      effectiveOrientation grad_type p.2 < (grad_type : ℚ) := by
    intro p hp
    obtain ⟨hp0, hp360⟩ := hpix p hp
    unfold effectiveOrientation
    rcases hgrad with h | h
    · subst h
      rw [if_neg (by norm_num [GRADIENT_UNSIGNED, GRADIENT_SIGNED])]
      split_ifs with hfold
      · constructor
        · linarith
        · norm_num [GRADIENT_UNSIGNED]
          linarith
      · constructor
        · exact hp0
        · norm_num [GRADIENT_UNSIGNED]
          linarith [not_le.mp hfold]
    · subst h
      rw [if_pos rfl]
      refine ⟨hp0, ?_⟩
      norm_num [GRADIENT_SIGNED]
      exact hp360
  have hinrange : ∀ p ∈ cellPixels cell_mag cell_ori,
      0 ≤ ratTrunc (effectiveOrientation grad_type p.2 / ((grad_type / binning : Nat) : ℚ)) ∧
      (ratTrunc (effectiveOrientation grad_type p.2 /
        ((grad_type / binning : Nat) : ℚ))).toNat < (List.replicate binning (0 : ℚ)).length := by
    intro p hp
    obtain ⟨he0, helt⟩ := heff p hp
    have hq0 : 0 ≤ effectiveOrientation grad_type p.2 / ((grad_type / binning : Nat) : ℚ) :=
      div_nonneg he0 hbwQpos.le
    have hqlt : effectiveOrientation grad_type p.2 / ((grad_type / binning : Nat) : ℚ)
        < (binning : ℚ) := by
      rw [div_lt_iff₀ hbwQpos]
      calc effectiveOrientation grad_type p.2 < (grad_type : ℚ) := helt
        _ = (binning : ℚ) * ((grad_type / binning : Nat) : ℚ) := by
            rw [hbwk, hk]
            push_cast
            ring
    have htr : ratTrunc (effectiveOrientation grad_type p.2 /
        ((grad_type / binning : Nat) : ℚ)) = ⌊effectiveOrientation grad_type p.2 /
        ((grad_type / binning : Nat) : ℚ)⌋ := by
      unfold ratTrunc
      rw [if_pos hq0]
    have hfl0 : 0 ≤ ⌊effectiveOrientation grad_type p.2 /
        ((grad_type / binning : Nat) : ℚ)⌋ := Int.floor_nonneg.mpr hq0
    have hflb : ⌊effectiveOrientation grad_type p.2 /
        ((grad_type / binning : Nat) : ℚ)⌋ < (binning : Int) :=
      Int.floor_lt.mpr (by exact_mod_cast hqlt)
    rw [htr, List.length_replicate]
    omega
  obtain ⟨r, hr, hrlen, hrval⟩ := foldlM_histAtAdd_eq
    (fun p => ratTrunc (effectiveOrientation grad_type p.2 / ((grad_type / binning : Nat) : ℚ)))
    (cellPixels cell_mag cell_ori) (List.replicate binning 0) hinrange
  have hpc : process_cell binning (grad_type / binning) grad_type cell_mag cell_ori
      = some r := by
    unfold process_cell
    exact hr
  rw [hpc]
  congr 1
  apply nthQ_ext
  · rw [hrlen, List.length_replicate]
    unfold specCellHistReal
    rw [List.length_map, List.length_range]
  · intro b hb
    have hbb : b < binning := by
      rw [hrlen, List.length_replicate] at hb
      exact hb
    rw [hrval b, nthQ_replicate_zero, zero_add]
    have hspec : nthQ (specCellHistReal binning grad_type cell_mag cell_ori) b
        = ((cellPixels cell_mag cell_ori).filter fun p =>
            ⌊effectiveOrientation grad_type p.2 / ((grad_type : ℚ) / (binning : ℚ))⌋
              == (b : Int)).foldl (fun a p => a + p.1) 0 := by
      unfold specCellHistReal
      rw [nthQ, List.getElem?_map, List.getElem?_range hbb]
      rfl
    rw [hspec]
    congr 1
    apply List.filter_congr
    intro p hp
    obtain ⟨he0, -⟩ := heff p hp
    have hq0 : 0 ≤ effectiveOrientation grad_type p.2 / ((grad_type / binning : Nat) : ℚ) :=
      div_nonneg he0 hbwQpos.le
    rw [hrealwidth]
    unfold ratTrunc
    rw [if_pos hq0]

/-- C1, witness: the amended theorem at the repository's default unsigned
configuration (9 bins over 180°, bin width 20), on a 2-pixel cell with
orientations 15 (bin 0) and 195 (folded to 15, bin 0). -/
theorem c1_weighted_voting_witness :
    process_cell 9 (180 / 9) 180 [[2], [3]] [[15], [195]]
      = some (specCellHistReal 9 180 [[2], [3]] [[15], [195]]) :=
  c1_cell_histogram_is_weighted_voting 9 180 [[2], [3]] [[15], [195]]
    (Or.inl rfl) (by norm_num) (by norm_num)
    (by
      intro row hrow o ho
      rcases List.mem_pair.mp hrow with h | h <;> subst h <;>
        rw [List.mem_singleton] at ho <;> subst ho <;> norm_num)

/-- C1, counterexample: with 8 bins over the unsigned 180° range the
constructor's integer bin width is `180 / 8 = 22`, not the real quotient
`22.5`.  A pixel with orientation 112 and magnitude 1 lands in bin
`⌊112/22⌋ = 5` in the code, while voting with the real-division bin width
puts it in bin `⌊112/22.5⌋ = 4` — the cell pass does not implement the
claim's real-division formula. -/
theorem c1_real_division_bin_width_fails :
    process_cell 8 (180 / 8) 180 [[1]] [[112]]
      ≠ some (specCellHistReal 8 180 [[1]] [[112]]) := by
  have hpix : cellPixels [[(1 : ℚ)]] [[(112 : ℚ)]] = [((1 : ℚ), (112 : ℚ))] := rfl
  have heff : effectiveOrientation 180 (112 : ℚ) = (112 : ℚ) := by
    unfold effectiveOrientation
    rw [if_neg (by norm_num [GRADIENT_SIGNED]), if_neg (by norm_num)]
  have hL : process_cell 8 (180 / 8) 180 [[1]] [[112]] = some [0, 0, 0, 0, 0, 1, 0, 0] := by
    have hfl : ratTrunc (effectiveOrientation 180 (112 : ℚ) / ((180 / 8 : Nat) : ℚ)) = 5 := by
      have h22 : ((180 / 8 : Nat) : ℚ) = 22 := by norm_num
      rw [heff, h22]
      unfold ratTrunc
      rw [if_pos (by norm_num)]
      rw [Int.floor_eq_iff]
      norm_num
    have hstep : histAtAdd (List.replicate 8 (0 : ℚ)) 5 1 = some [0, 0, 0, 0, 0, 1, 0, 0] := by
      unfold histAtAdd
      rw [dif_pos (by norm_num : (0 : Int) ≤ 5 ∧ (5 : Int).toNat < (List.replicate 8 (0 : ℚ)).length)]
      norm_num
      rfl
    unfold process_cell
    rw [hpix, List.foldlM_cons]
    dsimp only
    rw [hfl, hstep]
    rfl
  have hR : specCellHistReal 8 180 [[1]] [[112]] = [0, 0, 0, 0, 1, 0, 0, 0] := by
    have hfl4 : ⌊effectiveOrientation 180 (112 : ℚ) / (((180 : Nat) : ℚ) / ((8 : Nat) : ℚ))⌋
        = 4 := by
      have h45 : (112 : ℚ) / (((180 : Nat) : ℚ) / ((8 : Nat) : ℚ)) = 224 / 45 := by norm_num
      rw [heff, h45, Int.floor_eq_iff]
      norm_num
    unfold specCellHistReal
    rw [hpix]
    have hrange : List.range 8 = [0, 1, 2, 3, 4, 5, 6, 7] := rfl
    rw [hrange]
    simp only [List.map_cons, List.map_nil, List.filter_cons, List.filter_nil, hfl4]
    norm_num
  rw [hL, hR]
  intro h
  have := Option.some.inj h
  have h4 := congrArg (fun l => nthQ l 4) this
  simp only [nthQ] at h4
  norm_num at h4

/-- A successful `mapM` over `Option` preserves the length. -/
theorem mapM_some_length {α β : Type} (f : α → Option β) :
    ∀ (l : List α) (r : List β), l.mapM f = some r → r.length = l.length := by
  intro l
  induction l with
  | nil =>
    intro r h
    simp only [List.mapM_nil, Option.pure_def, Option.some.injEq] at h
    subst h
    rfl
  | cons x xs ih =>
    intro r h
    rw [List.mapM_cons] at h
    cases hfx : f x with
    | none => rw [hfx] at h; simp at h
    | some y =>
      rw [hfx] at h
      cases hmx : xs.mapM f with
      | none => rw [hmx] at h; simp at h
      | some ys =>
        rw [hmx] at h
        have h' : some (y :: ys) = some r := h
        obtain rfl := Option.some.inj h'
        simp [ih ys hmx]

/-- `mapM` over `Option` succeeds when every element does. -/
theorem mapM_isSome_of_forall {α β : Type} (f : α → Option β) :
    ∀ (l : List α), (∀ x ∈ l, (f x).isSome) → ∃ r, l.mapM f = some r := by
  intro l
  induction l with
  | nil => exact fun _ => ⟨[], rfl⟩
  | cons x xs ih =>
    intro h
    obtain ⟨y, hy⟩ := Option.isSome_iff_exists.mp (h x (by simp))
    obtain ⟨ys, hys⟩ := ih (fun z hz => h z (by simp [hz]))
    refine ⟨y :: ys, ?_⟩
    rw [List.mapM_cons, hy, hys]
    rfl

/-- Every element of a successful `mapM` result comes from some input
element. -/
theorem mapM_some_mem {α β : Type} (f : α → Option β) :
    ∀ (l : List α) (r : List β), l.mapM f = some r → ∀ y ∈ r, ∃ x ∈ l, f x = some y := by
  intro l
  induction l with
  | nil =>
    intro r h y hy
    simp only [List.mapM_nil, Option.pure_def, Option.some.injEq] at h
    subst h
    simp at hy
  | cons x xs ih =>
    intro r h y hy
    rw [List.mapM_cons] at h
    cases hfx : f x with
    | none => rw [hfx] at h; simp at h
    | some z =>
      rw [hfx] at h
      cases hmx : xs.mapM f with
      | none => rw [hmx] at h; simp at h
      | some zs =>
        rw [hmx] at h
        have h' : some (z :: zs) = some r := h
        obtain rfl := Option.some.inj h'
        rcases List.mem_cons.mp hy with hz | hz
        · exact ⟨x, by simp, by rw [hfx, hz]⟩
        · obtain ⟨x', hx', hfx'⟩ := ih zs hmx y hz
          exact ⟨x', by simp [hx'], hfx'⟩

/-- The generic shape of the accumulation loops in `retrieve`: folding
"append the produced chunk" over a list is `mapM` followed by flattening
onto the starting accumulator. -/
theorem foldlM_map_append {α : Type} (l : List α) (f : α → Option (List ℚ)) (acc : List ℚ) :
    l.foldlM (fun a xx => (f xx).map (fun h => a ++ h)) acc
      = (l.mapM f).map (fun hs => acc ++ hs.flatten) := by
  induction l generalizing acc with
  | nil =>
    rw [List.foldlM_nil, List.mapM_nil]
    simp
  | cons x xs ih =>
    rw [List.foldlM_cons, List.mapM_cons]
    cases hfx : f x with
    | none => simp [hfx]
    | some h =>
      cases hmx : xs.mapM f with
      | none =>
        simp [hmx, ih]
        exact hmx
      | some ys =>
        simp [hmx, ih, List.append_assoc]
        exact ⟨ys, hmx, rfl⟩

/-- `foldlM` only depends on the pointwise behavior of the step
function. -/
theorem foldlM_congr_fun {α : Type} (l : List α) (f g : List ℚ → α → Option (List ℚ))
    (acc : List ℚ) (h : ∀ a x, f a x = g a x) : l.foldlM f acc = l.foldlM g acc := by
  have hfg : f = g := funext fun a => funext fun x => h a x
  rw [hfg]

/-- The two cell loops of `retrieve` produce, for each block position,
exactly the spec's block vector: the row-major concatenation of the
histograms of the block's member cells. -/
theorem buildBlockHist_eq_spec (ch : List (List (List ℚ))) (ncpb b_y b_x : Nat) :
    buildBlockHist ch ncpb ncpb b_y b_x = specBlockVector ch ncpb b_y b_x := by
  have hinner : ∀ (dy : Nat) (acc : List ℚ),
      (List.range ncpb).foldlM
        (fun acc2 dx => (getCellHist ch (b_y + dy) (b_x + dx)).map (fun h => acc2 ++ h)) acc
      = ((List.range ncpb).mapM (fun dx => getCellHist ch (b_y + dy) (b_x + dx))).map
          (fun hs => acc ++ hs.flatten) :=
    fun dy acc => foldlM_map_append (List.range ncpb) _ acc
  unfold buildBlockHist
  have step1 : (List.range ncpb).foldlM
      (fun acc dy => (List.range ncpb).foldlM
        (fun acc2 dx => (getCellHist ch (b_y + dy) (b_x + dx)).map (fun h => acc2 ++ h)) acc)
      []
      = (List.range ncpb).foldlM
          (fun acc dy =>
            (((List.range ncpb).mapM (fun dx => getCellHist ch (b_y + dy) (b_x + dx))).map
              List.flatten).map (fun h => acc ++ h))
          [] := by
    apply foldlM_congr_fun
    intro a dy
    rw [hinner dy a, Option.map_map]
    rfl
  have step2 : (List.range ncpb).foldlM
      (fun acc dy =>
        (((List.range ncpb).mapM (fun dx => getCellHist ch (b_y + dy) (b_x + dx))).map
          List.flatten).map (fun h => acc ++ h))
      []
      = ((List.range ncpb).mapM fun dy =>
          ((List.range ncpb).mapM (fun dx => getCellHist ch (b_y + dy) (b_x + dx))).map
            List.flatten).map (fun hs => [] ++ hs.flatten) :=
    foldlM_map_append _ _ _
  have step3 : ((List.range ncpb).mapM fun dy =>
        ((List.range ncpb).mapM (fun dx => getCellHist ch (b_y + dy) (b_x + dx))).map
          List.flatten).map (fun hs => [] ++ hs.flatten)
      = specBlockVector ch ncpb b_y b_x := by
    unfold specBlockVector
    congr 1
  exact step1.trans (step2.trans step3)

/-- The loop `for (i = start; i <= start + extent - ncpb; i += step)`
visits exactly the spec's block positions when the block fits the
extent. -/
theorem positions_eq_spec (start extent ncpb step : Nat) (hfit : ncpb ≤ extent) :
    positions start (start + extent - ncpb) step = specPositions start extent ncpb step := by
  unfold positions specPositions
  rw [if_pos (by omega)]
  have harg : start + extent - ncpb - start = extent - ncpb := by omega
  rw [harg]

/-- Membership bound for the spec's block positions. -/
theorem specPositions_mem (start extent ncpb step p : Nat)
    (hp : p ∈ specPositions start extent ncpb step) (hnb : ncpb ≤ extent) :
    start ≤ p ∧ p + ncpb ≤ start + extent := by
  unfold specPositions at hp
  obtain ⟨i, hi, rfl⟩ := List.mem_map.mp hp
  rw [List.mem_range] at hi
  have hmul : i * step ≤ extent - ncpb :=
    le_trans (Nat.mul_le_mul_right step (by omega)) (Nat.div_mul_le_self (extent - ncpb) step)
  omega

/-- The number of spec block positions along one axis. -/
theorem specPositions_length (start extent ncpb step : Nat) :
    (specPositions start extent ncpb step).length = (extent - ncpb) / step + 1 := by
  unfold specPositions
  rw [List.length_map, List.length_range]

/-- The `size_t` bound arithmetic of the block loops computes the exact
value when nothing wraps. -/
theorem subU64_addU64_eq (a b c : Nat) (hab : a + b < U64) (hc : c ≤ a + b) :
    subU64 (addU64 a b) c = a + b - c := by
  unfold subU64 addU64 U64
  unfold U64 at hab
  omega

/-- The pixel-to-cell conversion of `retrieve` is plain integer division
for the in-range coordinates of a valid window. -/
theorem pixelToCellUnits_eq (p : Int) (c : Nat) (h0 : 0 ≤ p) (hlt : p < 2 ^ 31) :
    pixelToCellUnits p c = p.toNat / c := by
  have h1 : toSizeT p = p.toNat := by
    unfold toSizeT U64
    omega
  have h2 : p.toNat / c < 2 ^ 31 :=
    lt_of_le_of_lt (Nat.div_le_self _ _) (by omega)
  have h3 : toCppInt (p.toNat / c) = ((p.toNat / c : Nat) : Int) := by
    unfold toCppInt U32
    rw [Nat.mod_eq_of_lt (by omega), if_pos (by omega)]
  unfold pixelToCellUnits
  rw [h1, h3]
  unfold toSizeT U64
  have h4 : ((p.toNat / c : Nat) : Int) % (((18446744073709551616 : Nat)) : Int)
      = ((p.toNat / c : Nat) : Int) :=
    Int.emod_eq_of_lt (by positivity) (by exact_mod_cast lt_trans h2 (by norm_num))
  rw [h4]
  omega

/-- The doubly nested accumulation loop of `retrieve` (y outer, x inner,
normalize each block vector before appending) is the row-major
concatenation of the normalized block vectors. -/
theorem double_fold_eq_mapM (posY posX : List Nat) (F : Nat → Nat → Option (List ℚ))
    (norm : List ℚ → List ℚ) :
    posY.foldlM
      (fun acc b_y => posX.foldlM
        (fun acc2 b_x => (F b_y b_x).map (fun bh => acc2 ++ norm bh)) acc)
      []
      = (posY.mapM fun b_y =>
          (posX.mapM fun b_x => (F b_y b_x).map norm).map (fun bs => bs.flatten)).map
          (fun rows => rows.flatten) := by
  have hinner : ∀ (b_y : Nat) (acc : List ℚ),
      posX.foldlM (fun acc2 b_x => (F b_y b_x).map (fun bh => acc2 ++ norm bh)) acc
      = (posX.mapM fun b_x => (F b_y b_x).map norm).map (fun hs => acc ++ hs.flatten) := by
    intro b_y acc
    rw [← foldlM_map_append]
    apply foldlM_congr_fun
    intro a x
    rw [Option.map_map]
    rfl
  have step1 : posY.foldlM
      (fun acc b_y => posX.foldlM
        (fun acc2 b_x => (F b_y b_x).map (fun bh => acc2 ++ norm bh)) acc)
      []
      = posY.foldlM
          (fun acc b_y =>
            ((posX.mapM fun b_x => (F b_y b_x).map norm).map (fun bs => bs.flatten)).map
              (fun h => acc ++ h))
          [] := by
    apply foldlM_congr_fun
    intro a b_y
    rw [hinner b_y a, Option.map_map]
    rfl
  have step2 : posY.foldlM
      (fun acc b_y =>
        ((posX.mapM fun b_x => (F b_y b_x).map norm).map (fun bs => bs.flatten)).map
          (fun h => acc ++ h))
      []
      = (posY.mapM fun b_y =>
          (posX.mapM fun b_x => (F b_y b_x).map norm).map (fun bs => bs.flatten)).map
          (fun hs => [] ++ hs.flatten) :=
    foldlM_map_append _ _ _
  have step3 : (posY.mapM fun b_y =>
        (posX.mapM fun b_x => (F b_y b_x).map norm).map (fun bs => bs.flatten)).map
        (fun hs => [] ++ hs.flatten)
      = (posY.mapM fun b_y =>
          (posX.mapM fun b_x => (F b_y b_x).map norm).map (fun bs => bs.flatten)).map
          (fun rows => rows.flatten) := by
    congr 1
  exact step1.trans (step2.trans step3)

/-- `toSizeT` is the identity on in-range nonnegative values. -/
theorem toSizeT_small (p : Int) (h0 : 0 ≤ p) (hlt : p < 2 ^ 31) : toSizeT p = p.toNat := by
  unfold toSizeT U64
  omega

/-- C2 / C3 master lemma: on a valid window the two precondition checks
pass, the coordinate conversions are plain integer division, and the
block loops compute exactly the spec-side descriptor. -/
theorem retrieve_eq_specDescriptor (st : HOGState) (norm : List ℚ → List ℚ) (w : Rect)
    (hvw : ValidWindow st w) :
    retrieve st norm w = optionToExcept (specDescriptor st norm w) := by
  obtain ⟨hx0, hy0, hbw, hbh, hxw, hyh, hcols, hrows⟩ := hvw
  have hxlt : w.x < 2 ^ 31 := by omega
  have hylt : w.y < 2 ^ 31 := by omega
  have hwlt : w.width < 2 ^ 31 := by omega
  have hhlt : w.height < 2 ^ 31 := by omega
  have hw0 : 0 ≤ w.width := le_trans (by positivity) hbw
  have hh0 : 0 ≤ w.height := le_trans (by positivity) hbh
  have hBw : st.cfg.blocksize ≤ w.width.toNat := by omega
  have hBh : st.cfg.blocksize ≤ w.height.toNat := by omega
  have hfity : n_cells_per_block_y st.cfg ≤ w.height.toNat / st.cfg.cellsize :=
    Nat.div_le_div_right hBh
  have hfitx : n_cells_per_block_y st.cfg ≤ w.width.toNat / st.cfg.cellsize :=
    Nat.div_le_div_right hBw
  unfold retrieve
  rw [if_neg (by
    rw [toSizeT_small w.height hh0 hhlt, toSizeT_small w.width hw0 hwlt]
    omega)]
  rw [if_neg (by omega)]
  dsimp only
  rw [pixelToCellUnits_eq w.x st.cfg.cellsize hx0 hxlt,
    pixelToCellUnits_eq w.y st.cfg.cellsize hy0 hylt,
    pixelToCellUnits_eq w.width st.cfg.cellsize hw0 hwlt,
    pixelToCellUnits_eq w.height st.cfg.cellsize hh0 hhlt]
  rw [subU64_addU64_eq (w.y.toNat / st.cfg.cellsize) (w.height.toNat / st.cfg.cellsize)
      (n_cells_per_block_y st.cfg)
      (by
        have h1 : w.y.toNat / st.cfg.cellsize ≤ w.y.toNat := Nat.div_le_self _ _
        have h2 : w.height.toNat / st.cfg.cellsize ≤ w.height.toNat := Nat.div_le_self _ _
        unfold U64
        omega)
      (le_trans hfity (Nat.le_add_left _ _)),
    subU64_addU64_eq (w.x.toNat / st.cfg.cellsize) (w.width.toNat / st.cfg.cellsize)
      (n_cells_per_block_x st.cfg)
      (by
        have h1 : w.x.toNat / st.cfg.cellsize ≤ w.x.toNat := Nat.div_le_self _ _
        have h2 : w.width.toNat / st.cfg.cellsize ≤ w.width.toNat := Nat.div_le_self _ _
        unfold U64
        omega)
      (by
        rw [show n_cells_per_block_x st.cfg = n_cells_per_block_y st.cfg from rfl]
        exact le_trans hfitx (Nat.le_add_left _ _))]
  rw [positions_eq_spec (w.y.toNat / st.cfg.cellsize) (w.height.toNat / st.cfg.cellsize)
      (n_cells_per_block_y st.cfg) (stride_unit st.cfg) hfity]
  rw [show n_cells_per_block_x st.cfg = n_cells_per_block_y st.cfg from rfl]
  rw [positions_eq_spec (w.x.toNat / st.cfg.cellsize) (w.width.toNat / st.cfg.cellsize)
      (n_cells_per_block_y st.cfg) (stride_unit st.cfg) hfitx]
  congr 1
  simp only [buildBlockHist_eq_spec]
  rw [double_fold_eq_mapM]
  unfold specDescriptor
  rfl

/-- The flattening of lists of one common length. -/
theorem flatten_length_const {α : Type} (k : Nat) :
    ∀ (ls : List (List α)), (∀ l ∈ ls, l.length = k) → ls.flatten.length = ls.length * k := by
  intro ls
  induction ls with
  | nil => simp
  | cons x xs ih =>
    intro h
    rw [List.flatten_cons, List.length_append, ih (fun l hl => h l (by simp [hl])),
      h x (by simp), List.length_cons]
    ring

/-- A value read from the cell grid is one of the grid's histograms. -/
theorem getCellHist_mem (ch : List (List (List ℚ))) (cy cx : Nat) (h : List ℚ)
    (hg : getCellHist ch cy cx = some h) : ∃ row ∈ ch, h ∈ row := by
  unfold getCellHist at hg
  cases hrow : ch[cy]? with
  | none => rw [hrow] at hg; simp at hg
  | some row =>
    rw [hrow] at hg
    simp only [Option.some_bind] at hg
    obtain ⟨hlt, rfl⟩ := List.getElem?_eq_some_iff.mp hrow
    exact ⟨ch[cy], List.getElem_mem hlt,
      by
        obtain ⟨hlt2, rfl⟩ := List.getElem?_eq_some_iff.mp hg
        exact List.getElem_mem hlt2⟩

/-- The grid access succeeds for in-range indices. -/
theorem getCellHist_isSome (ch : List (List (List ℚ))) (cy cx : Nat)
    (hcy : cy < ch.length) (hcx : ∀ row ∈ ch, cx < row.length) :
    (getCellHist ch cy cx).isSome := by
  unfold getCellHist
  rw [List.getElem?_eq_getElem hcy]
  simp only [Option.some_bind]
  rw [List.getElem?_eq_getElem (hcx ch[cy] (List.getElem_mem hcy))]
  rfl

/-- The spec block vector of an in-range block position exists and has
`cells_per_block²` times the common histogram length entries. -/
theorem specBlockVector_some_length (ch : List (List (List ℚ))) (ncpb b_y b_x k : Nat)
    (hy : b_y + ncpb ≤ ch.length)
    (hx : ∀ row ∈ ch, b_x + ncpb ≤ row.length)
    (hk : ∀ row ∈ ch, ∀ h ∈ row, h.length = k) :
    ∃ bv, specBlockVector ch ncpb b_y b_x = some bv ∧ bv.length = ncpb * (ncpb * k) := by
  have hrow : ∀ dy, dy < ncpb →
      ∃ cells, (List.range ncpb).mapM (fun dx => getCellHist ch (b_y + dy) (b_x + dx))
          = some cells ∧ cells.flatten.length = ncpb * k := by
    intro dy hdy
    obtain ⟨cells, hcells⟩ := mapM_isSome_of_forall
      (fun dx => getCellHist ch (b_y + dy) (b_x + dx)) (List.range ncpb)
      (by
        intro dx hdx
        rw [List.mem_range] at hdx
        exact getCellHist_isSome ch (b_y + dy) (b_x + dx) (by omega)
          (fun row hrow => by have := hx row hrow; omega))
    refine ⟨cells, hcells, ?_⟩
    rw [flatten_length_const k cells ?_, mapM_some_length _ _ _ hcells, List.length_range]
    intro cell hcell
    obtain ⟨dx, -, hgc⟩ := mapM_some_mem _ _ _ hcells cell hcell
    obtain ⟨row, hrowm, hcm⟩ := getCellHist_mem ch (b_y + dy) (b_x + dx) cell hgc
    exact hk row hrowm cell hcm
  obtain ⟨rows2, hrows2⟩ := mapM_isSome_of_forall
    (fun dy => ((List.range ncpb).mapM (fun dx => getCellHist ch (b_y + dy) (b_x + dx))).map
      List.flatten) (List.range ncpb)
    (by
      intro dy hdy
      rw [List.mem_range] at hdy
      obtain ⟨cells, hcells, -⟩ := hrow dy hdy
      show (((List.range ncpb).mapM (fun dx => getCellHist ch (b_y + dy) (b_x + dx))).map
        List.flatten).isSome = true
      rw [hcells]
      rfl)
  refine ⟨rows2.flatten, ?_, ?_⟩
  · unfold specBlockVector
    rw [hrows2]
    rfl
  · rw [flatten_length_const (ncpb * k) rows2 ?_, mapM_some_length _ _ _ hrows2,
      List.length_range]
    intro row2 hrow2
    obtain ⟨dy, hdym, hgd⟩ := mapM_some_mem _ _ _ hrows2 row2 hrow2
    rw [List.mem_range] at hdym
    obtain ⟨cells, hcells, hclen⟩ := hrow dy hdym
    rw [hcells] at hgd
    simp only [Option.map_some'] at hgd
    obtain rfl := Option.some.inj hgd
    exact hclen

/-- On a valid window over a well-formed cell grid, the spec descriptor
exists and its length is the closed form
`n_blocks_y * n_blocks_x * cells_per_block² * bin_count`. -/
theorem specDescriptor_some_length (st : HOGState) (norm : List ℚ → List ℚ) (w : Rect)
    (hnorm : ∀ v, (norm v).length = v.length)
    (hwfr : st.cell_hists.length = matRows st.mag / st.cfg.cellsize)
    (hwfc : ∀ row ∈ st.cell_hists, row.length = matCols st.mag / st.cfg.cellsize)
    (hwfk : ∀ row ∈ st.cell_hists, ∀ h ∈ row, h.length = st.cfg.binning)
    (hvw : ValidWindow st w) :
    ∃ d, specDescriptor st norm w = some d ∧
      d.length = n_blocks_y st.cfg w * (n_blocks_x st.cfg w *
        (n_cells_per_block_y st.cfg * (n_cells_per_block_y st.cfg * st.cfg.binning))) := by
  obtain ⟨hx0, hy0, hbw, hbh, hxw, hyh, hcols, hrows⟩ := hvw
  have hyadd : w.y.toNat / st.cfg.cellsize + w.height.toNat / st.cfg.cellsize
      ≤ matRows st.mag / st.cfg.cellsize :=
    le_trans (Nat.add_div_le_add_div _ _ _) (Nat.div_le_div_right (by omega))
  have hxadd : w.x.toNat / st.cfg.cellsize + w.width.toNat / st.cfg.cellsize
      ≤ matCols st.mag / st.cfg.cellsize :=
    le_trans (Nat.add_div_le_add_div _ _ _) (Nat.div_le_div_right (by omega))
  have hfity : n_cells_per_block_y st.cfg ≤ w.height.toNat / st.cfg.cellsize :=
    Nat.div_le_div_right (by omega)
  have hfitx : n_cells_per_block_y st.cfg ≤ w.width.toNat / st.cfg.cellsize :=
    Nat.div_le_div_right (by omega)
  have hblock : ∀ b_y ∈ specPositions (w.y.toNat / st.cfg.cellsize)
      (w.height.toNat / st.cfg.cellsize) (n_cells_per_block_y st.cfg) (stride_unit st.cfg),
      ∀ b_x ∈ specPositions (w.x.toNat / st.cfg.cellsize)
        (w.width.toNat / st.cfg.cellsize) (n_cells_per_block_y st.cfg) (stride_unit st.cfg),
      ∃ bv, specBlockVector st.cell_hists (n_cells_per_block_y st.cfg) b_y b_x = some bv ∧
        bv.length = n_cells_per_block_y st.cfg *
          (n_cells_per_block_y st.cfg * st.cfg.binning) := by
    intro b_y hby b_x hbx
    obtain ⟨-, hby2⟩ := specPositions_mem _ _ _ _ _ hby hfity
    obtain ⟨-, hbx2⟩ := specPositions_mem _ _ _ _ _ hbx hfitx
    exact specBlockVector_some_length st.cell_hists (n_cells_per_block_y st.cfg) b_y b_x
      st.cfg.binning (by omega)
      (fun row hrowm => by rw [hwfc row hrowm]; omega)
      hwfk
  have hinner : ∀ b_y ∈ specPositions (w.y.toNat / st.cfg.cellsize)
      (w.height.toNat / st.cfg.cellsize) (n_cells_per_block_y st.cfg) (stride_unit st.cfg),
      ∃ bs, (specPositions (w.x.toNat / st.cfg.cellsize) (w.width.toNat / st.cfg.cellsize)
          (n_cells_per_block_y st.cfg) (stride_unit st.cfg)).mapM
          (fun b_x => (specBlockVector st.cell_hists (n_cells_per_block_y st.cfg) b_y b_x).map
            norm) = some bs ∧
        bs.flatten.length = n_blocks_x st.cfg w *
          (n_cells_per_block_y st.cfg * (n_cells_per_block_y st.cfg * st.cfg.binning)) := by
    intro b_y hby
    obtain ⟨bs, hbs⟩ := mapM_isSome_of_forall _ _
      (by
        intro b_x hbx
        obtain ⟨bv, hbv, -⟩ := hblock b_y hby b_x hbx
        show ((specBlockVector st.cell_hists (n_cells_per_block_y st.cfg) b_y b_x).map
          norm).isSome = true
        rw [hbv]
        rfl)
    refine ⟨bs, hbs, ?_⟩
    rw [flatten_length_const (n_cells_per_block_y st.cfg *
        (n_cells_per_block_y st.cfg * st.cfg.binning)) bs ?_,
      mapM_some_length _ _ _ hbs, specPositions_length]
    · rfl
    · intro b hbmem
      obtain ⟨b_x, hbxm, hgb⟩ := mapM_some_mem _ _ _ hbs b hbmem
      obtain ⟨bv, hbv, hbvlen⟩ := hblock b_y hby b_x hbxm
      rw [hbv] at hgb
      simp only [Option.map_some'] at hgb
      obtain rfl := Option.some.inj hgb
      rw [hnorm, hbvlen]
  obtain ⟨rows, hrowsm⟩ := mapM_isSome_of_forall
    (fun b_y => ((specPositions (w.x.toNat / st.cfg.cellsize) (w.width.toNat / st.cfg.cellsize)
        (n_cells_per_block_y st.cfg) (stride_unit st.cfg)).mapM
        (fun b_x => (specBlockVector st.cell_hists (n_cells_per_block_y st.cfg) b_y b_x).map
          norm)).map (fun bs => bs.flatten))
    (specPositions (w.y.toNat / st.cfg.cellsize) (w.height.toNat / st.cfg.cellsize)
      (n_cells_per_block_y st.cfg) (stride_unit st.cfg))
    (by
      intro b_y hby
      obtain ⟨bs, hbs, -⟩ := hinner b_y hby
      show (((specPositions (w.x.toNat / st.cfg.cellsize) (w.width.toNat / st.cfg.cellsize)
          (n_cells_per_block_y st.cfg) (stride_unit st.cfg)).mapM
          (fun b_x => (specBlockVector st.cell_hists (n_cells_per_block_y st.cfg) b_y b_x).map
            norm)).map (fun bs => bs.flatten)).isSome = true
      rw [hbs]
      rfl)
  refine ⟨rows.flatten, ?_, ?_⟩
  · unfold specDescriptor
    dsimp only
    rw [hrowsm]
    rfl
  · rw [flatten_length_const (n_blocks_x st.cfg w *
        (n_cells_per_block_y st.cfg * (n_cells_per_block_y st.cfg * st.cfg.binning))) rows ?_,
      mapM_some_length _ _ _ hrowsm, specPositions_length]
    · rfl
    · intro row hrowm2
      obtain ⟨b_y, hbym, hgr⟩ := mapM_some_mem _ _ _ hrowsm row hrowm2
      obtain ⟨bs, hbs, hbslen⟩ := hinner b_y hbym
      rw [hbs] at hgr
      simp only [Option.map_some'] at hgr
      obtain rfl := Option.some.inj hgr
      exact hbslen

/-- `L1norm` preserves the length of its input. -/
theorem L1norm_length (v : List ℚ) : (L1norm v).length = v.length := by
  unfold L1norm
  dsimp only
  split_ifs <;> simp

/-- C2: after a successful `process` (a well-formed cell grid), for every
valid window with a positive cell-unit stride, `retrieve` returns exactly
the spec-side descriptor: the concatenation, over block positions
enumerated row-major (y-step outer, x-step inner) from the window's
top-left cell with step `stride / cellsize` and inclusive bound
`start + extent_in_cells - cells_per_block`, of the row-major
concatenations of the member cells' histograms with the configured
normalization applied to each block vector. -/
theorem c2_retrieve_is_block_concatenation (st : HOGState) (norm : List ℚ → List ℚ)
    (w : Rect)
    (_hcell : 1 ≤ st.cfg.cellsize) (_hsu : 1 ≤ stride_unit st.cfg)
    (hnorm : ∀ v, (norm v).length = v.length)
    (hwfr : st.cell_hists.length = matRows st.mag / st.cfg.cellsize)
    (hwfc : ∀ row ∈ st.cell_hists, row.length = matCols st.mag / st.cfg.cellsize)
    (hwfk : ∀ row ∈ st.cell_hists, ∀ h ∈ row, h.length = st.cfg.binning)
    (hvw : ValidWindow st w) :
    ∃ d, specDescriptor st norm w = some d ∧ retrieve st norm w = .ok d := by
  obtain ⟨d, hd, -⟩ := specDescriptor_some_length st norm w hnorm hwfr hwfc hwfk hvw
  refine ⟨d, hd, ?_⟩
  rw [retrieve_eq_specDescriptor st norm w hvw, hd]
  rfl

/-- C2, witness: the theorem at a concrete 32×32 processed session with
the `L1norm` block normalization and the full-image window. -/
theorem c2_witness :
    ∃ d, specDescriptor st32 L1norm ⟨0, 0, 32, 32⟩ = some d ∧
      retrieve st32 L1norm ⟨0, 0, 32, 32⟩ = .ok d :=
  c2_retrieve_is_block_concatenation st32 L1norm ⟨0, 0, 32, 32⟩ (by decide) (by decide)
    (fun v => L1norm_length v) (by decide) (by decide) (by decide)
    (by unfold ValidWindow; decide)

/-- C3: under the same conditions, the descriptor length is the closed
form `bin_count * cells_per_block² * n_blocks_y(window) * n_blocks_x(window)`. -/
theorem c3_retrieve_length_closed_form (st : HOGState) (norm : List ℚ → List ℚ)
    (w : Rect)
    (_hcell : 1 ≤ st.cfg.cellsize) (_hsu : 1 ≤ stride_unit st.cfg)
    (hnorm : ∀ v, (norm v).length = v.length)
    (hwfr : st.cell_hists.length = matRows st.mag / st.cfg.cellsize)
    (hwfc : ∀ row ∈ st.cell_hists, row.length = matCols st.mag / st.cfg.cellsize)
    (hwfk : ∀ row ∈ st.cell_hists, ∀ h ∈ row, h.length = st.cfg.binning)
    (hvw : ValidWindow st w) :
    ∃ r, retrieve st norm w = .ok r ∧
      r.length = st.cfg.binning * n_cells_per_block_y st.cfg ^ 2 *
        n_blocks_y st.cfg w * n_blocks_x st.cfg w := by
  obtain ⟨d, hd, hdl⟩ := specDescriptor_some_length st norm w hnorm hwfr hwfc hwfk hvw
  refine ⟨d, ?_, ?_⟩
  · rw [retrieve_eq_specDescriptor st norm w hvw, hd]
    rfl
  · rw [hdl]
    ring

/-- C3, witness: the end-to-end instance of the spec — blocksize 32,
cellsize 16, stride 16, 9 bins, unsigned mode, over a 256×128 window the
descriptor length is exactly `9 * 4 * 15 * 7`. -/
theorem c3_witness :
    ∃ r, retrieve st256 L1norm ⟨0, 0, 128, 256⟩ = .ok r ∧ r.length = 9 * 4 * 15 * 7 := by
  obtain ⟨r, hr, hlen⟩ := c3_retrieve_length_closed_form st256 L1norm ⟨0, 0, 128, 256⟩
    (by decide) (by decide) (fun v => L1norm_length v) (by decide) (by decide) (by decide)
    (by unfold ValidWindow; decide)
  refine ⟨r, hr, ?_⟩
  rw [hlen]
  decide

/-- `at()` preserves the histogram length when it succeeds. -/
theorem histAtAdd_length (hist : List ℚ) (idx : Int) (m : ℚ) (r : List ℚ)
    (h : histAtAdd hist idx m = some r) : r.length = hist.length := by
  unfold histAtAdd at h
  by_cases hcond : 0 ≤ idx ∧ idx.toNat < hist.length
  · rw [dif_pos hcond] at h
    obtain rfl := Option.some.inj h
    simp
  · rw [dif_neg hcond] at h
    cases h

/-- The pixel fold of `process_cell` preserves the histogram length. -/
theorem foldlM_histAtAdd_length (f : ℚ × ℚ → Int) :
    ∀ (pixels : List (ℚ × ℚ)) (hist r : List ℚ),
      pixels.foldlM (fun h p => histAtAdd h (f p) p.1) hist = some r →
      r.length = hist.length := by
  intro pixels
  induction pixels with
  | nil =>
    intro hist r h
    rw [List.foldlM_nil] at h
    obtain rfl := Option.some.inj h
    rfl
  | cons p ps ih =>
    intro hist r h
    rw [List.foldlM_cons] at h
    cases hstep : histAtAdd hist (f p) p.1 with
    | none => rw [hstep] at h; simp at h
    | some hist' =>
      rw [hstep] at h
      have h' : ps.foldlM (fun hh q => histAtAdd hh (f q) q.1) hist' = some r := h
      rw [ih hist' r h', histAtAdd_length hist (f p) p.1 hist' hstep]

/-- A histogram produced by `process_cell` has `_binning` bins. -/
theorem process_cell_length (binning bw grad : Nat) (m o : Mat) (r : List ℚ)
    (h : process_cell binning bw grad m o = some r) : r.length = binning := by
  unfold process_cell at h
  rw [foldlM_histAtAdd_length _ (cellPixels m o) (List.replicate binning 0) r h,
    List.length_replicate]

/-- The cell grid built by `process` has the dimensions and histogram
lengths assumed by the retrieval theorems. -/
theorem buildCellGrid_wf (cfg : HOGConfig) (m o : Mat) (ch : List (List (List ℚ)))
    (h : buildCellGrid cfg m o = some ch) :
    ch.length = matRows m / cfg.cellsize ∧
    (∀ row ∈ ch, row.length = matCols m / cfg.cellsize) ∧
    (∀ row ∈ ch, ∀ hh ∈ row, hh.length = cfg.binning) := by
  unfold buildCellGrid at h
  refine ⟨?_, ?_, ?_⟩
  · rw [mapM_some_length _ _ _ h, List.length_range]
  · intro row hrow
    obtain ⟨i, -, hrow'⟩ := mapM_some_mem _ _ _ h row hrow
    rw [mapM_some_length _ _ _ hrow', List.length_range]
  · intro row hrow hh hhh
    obtain ⟨i, -, hrow'⟩ := mapM_some_mem _ _ _ h row hrow
    obtain ⟨j, -, hcell⟩ := mapM_some_mem _ _ _ hrow' hh hhh
    exact process_cell_length _ _ _ _ _ hh hcell

/-- Every successful `process` leaves the session in the well-formed
state assumed by the retrieval theorems: the cell grid has
`mag.rows/_cellsize` rows of `mag.cols/_cellsize` histograms of
`_binning` bins each. -/
theorem process_produces_wf (g : Img → Mat × Mat) (st st' : HOGState) (img : Img)
    (h : process g st img = (st', Option.none)) : ProcessedWF st' := by
  unfold process at h
  split_ifs at h with h1 h2
  · simp at h
  · simp at h
  · dsimp only at h
    cases hbg : buildCellGrid st.cfg (g img).1 (g img).2 with
    | none => rw [hbg] at h; simp at h
    | some ch =>
      rw [hbg] at h
      have hst : st' = { st with mag := (g img).1, ori := (g img).2, cell_hists := ch } := by
        have := congrArg Prod.fst h
        exact this.symm
      subst hst
      obtain ⟨hw1, hw2, hw3⟩ := buildCellGrid_wf st.cfg (g img).1 (g img).2 ch hbg
      exact ⟨hw1, hw2, hw3⟩

end HOG
